import Mathlib

/-!
Verification of the vid2Quiz backend (transcript assembly and quiz
synthesis).  The JavaScript source in `src/server.js` and
`src/transcript.js` is shallowly embedded: strings become `List Char` /
`String`, the external captions provider and the chat-completion network
call become explicit parameters, thrown exceptions become `Except`
errors, and `JSON.parse` is embedded as a fueled recursive-descent
parser over the JSON grammar.
-/

namespace Vid2Quiz

/-- Whitespace accepted by `JSON.parse` between tokens: space, tab,
line feed, carriage return. -/
def isJsonWs (c : Char) : Bool :=
  c == ' ' || c == '\t' || c == '\n' || c == '\r'

/-- ASCII whitespace matched by the JavaScript regex class `\s` (and by
`String.prototype.trim`): space, tab, line feed, vertical tab, form
feed, carriage return.  The inputs handled by this backend are ASCII,
so the non-ASCII members of `\s` are not modelled. -/
def isRegexWs (c : Char) : Bool :=
  c == ' ' || c == '\t' || c == '\n' || c == '\x0b' || c == '\x0c' || c == '\r'

/-- Decimal digit. -/
def isDigit (c : Char) : Bool :=
  48 ≤ c.toNat && c.toNat ≤ 57

/-- Value of a hexadecimal digit, used by the `\uXXXX` string escape. -/
def hexVal (c : Char) : Option Nat :=
  if 48 ≤ c.toNat ∧ c.toNat ≤ 57 then some (c.toNat - 48)
  else if 97 ≤ c.toNat ∧ c.toNat ≤ 102 then some (c.toNat - 87)
  else if 65 ≤ c.toNat ∧ c.toNat ≤ 70 then some (c.toNat - 55)
  else none

/-- JSON values as produced by `JSON.parse`.  Numbers keep their source
lexeme: the claims under verification only inspect small integer
literals, whose identity is fully captured by the lexeme. -/
inductive Json where
  | null : Json
  | bool (b : Bool) : Json
  | num (lex : String) : Json
  | str (s : String) : Json
  | arr (items : List Json) : Json
  | obj (fields : List (String × Json)) : Json
deriving Repr

/-- Integer value of an integral number lexeme (no fraction, no
exponent), used to state that a parsed `correct` field equals 1. -/
def numLexInt (lex : String) : Option Int :=
  match lex.toList with
  | '-' :: ds => if ds ≠ [] ∧ ds.all isDigit then some (-(ds.foldl (fun a c => a * 10 + (c.toNat - 48)) 0 : Nat)) else none
  | ds => if ds ≠ [] ∧ ds.all isDigit then some ((ds.foldl (fun a c => a * 10 + (c.toNat - 48)) 0 : Nat)) else none

/-- Skip JSON inter-token whitespace. -/
def skipWs (l : List Char) : List Char :=
  l.dropWhile isJsonWs

/-- Decode a single-character string escape (`\"`, `\\`, `\/`, `\b`,
`\f`, `\n`, `\r`, `\t`). -/
def decodeSimpleEsc (e : Char) : Option Char :=
  if e == '"' then some '"'
  else if e == '\\' then some '\\'
  else if e == '/' then some '/'
  else if e == 'b' then some '\x08'
  else if e == 'f' then some '\x0c'
  else if e == 'n' then some '\n'
  else if e == 'r' then some '\r'
  else if e == 't' then some '\t'
  else none

/-- Parse the body of a JSON string after the opening quote, returning
the decoded characters and the rest of the input after the closing
quote.  Raw control characters below U+0020 are rejected, as by
`JSON.parse`. -/
def parseStringBody : List Char → Option (List Char × List Char)
  | [] => none
  | '"' :: r => some ([], r)
  | '\\' :: 'u' :: a :: b :: c :: d :: r =>
    match hexVal a, hexVal b, hexVal c, hexVal d with
    | some ha, some hb, some hc, some hd =>
      match parseStringBody r with
      | some (s, rest) => some (Char.ofNat (((ha * 16 + hb) * 16 + hc) * 16 + hd) :: s, rest)
      | none => none
    | _, _, _, _ => none
  | '\\' :: e :: r =>
    match decodeSimpleEsc e with
    | some ch =>
      match parseStringBody r with
      | some (s, rest) => some (ch :: s, rest)
      | none => none
    | none => none
  | c :: r =>
    if c.toNat < 32 then none
    else
      match parseStringBody r with
      | some (s, rest) => some (c :: s, rest)
      | none => none

/-- Parse the integer part of a number after the optional sign:
`0` or a nonzero digit followed by digits. -/
def parseIntPart : List Char → Option (List Char × List Char)
  | '0' :: r => some (['0'], r)
  | c :: r =>
    if isDigit c ∧ c ≠ '0' then
      some (c :: r.takeWhile isDigit, r.dropWhile isDigit)
    else none
  | [] => none

/-- Parse an optional fraction part `.digits`. -/
def parseFracPart (l : List Char) : Option (List Char × List Char) :=
  match l with
  | '.' :: r =>
    let ds := r.takeWhile isDigit
    if ds = [] then none else some ('.' :: ds, r.dropWhile isDigit)
  | _ => some ([], l)

/-- Parse an optional exponent part `[eE][+-]?digits`. -/
def parseExpPart (l : List Char) : Option (List Char × List Char) :=
  match l with
  | e :: r =>
    if e == 'e' || e == 'E' then
      match r with
      | s :: r' =>
        if s == '+' || s == '-' then
          let ds := r'.takeWhile isDigit
          if ds = [] then none else some (e :: s :: ds, r'.dropWhile isDigit)
        else
          let ds := r.takeWhile isDigit
          if ds = [] then none else some (e :: ds, r.dropWhile isDigit)
      | [] => none
    else some ([], l)
  | [] => some ([], l)

/-- Parse a JSON number, returning its lexeme and the rest. -/
def parseNumber (l : List Char) : Option (List Char × List Char) :=
  let (sgn, l1) := match l with
    | '-' :: r => (['-'], r)
    | _ => (([] : List Char), l)
  match parseIntPart l1 with
  | none => none
  | some (ip, r1) =>
    match parseFracPart r1 with
    | none => none
    | some (fp, r2) =>
      match parseExpPart r2 with
      | none => none
      | some (ep, r3) => some (sgn ++ ip ++ fp ++ ep, r3)

mutual

/-- Parse a single JSON value (no leading whitespace), fueled. -/
def parseValue : Nat → List Char → Option (Json × List Char)
  | 0, _ => none
  | _ + 1, [] => none
  | fuel + 1, c :: r =>
    if c == '{' then
      match skipWs r with
      | '}' :: r' => some (Json.obj [], r')
      | r' => match parseObjItems fuel r' with
              | some (fs, rest) => some (Json.obj fs, rest)
              | none => none
    else if c == '[' then
      match skipWs r with
      | ']' :: r' => some (Json.arr [], r')
      | r' => match parseArrItems fuel r' with
              | some (vs, rest) => some (Json.arr vs, rest)
              | none => none
    else if c == '"' then
      match parseStringBody r with
      | some (s, rest) => some (Json.str (String.mk s), rest)
      | none => none
    else if c == 't' then
      match r with
      | 'r' :: 'u' :: 'e' :: r' => some (Json.bool true, r')
      | _ => none
    else if c == 'f' then
      match r with
      | 'a' :: 'l' :: 's' :: 'e' :: r' => some (Json.bool false, r')
      | _ => none
    else if c == 'n' then
      match r with
      | 'u' :: 'l' :: 'l' :: r' => some (Json.null, r')
      | _ => none
    else if c == '-' || isDigit c then
      match parseNumber (c :: r) with
      | some (lex, rest) => some (Json.num (String.mk lex), rest)
      | none => none
    else none

/-- Parse the items of a non-empty array, positioned at the first item
(whitespace skipped, closing bracket not yet seen), consuming the
closing bracket.  A comma must be followed by another value, so a
trailing comma fails, as in `JSON.parse`. -/
def parseArrItems : Nat → List Char → Option (List Json × List Char)
  | 0, _ => none
  | fuel + 1, l =>
    match parseValue fuel l with
    | none => none
    | some (v, r) =>
      match skipWs r with
      | ',' :: r' =>
        match parseArrItems fuel (skipWs r') with
        | some (vs, rest) => some (v :: vs, rest)
        | none => none
      | ']' :: r' => some ([v], r')
      | _ => none

/-- Parse the fields of a non-empty object, positioned at the first
key, consuming the closing brace. -/
def parseObjItems : Nat → List Char → Option (List (String × Json) × List Char)
  | 0, _ => none
  | fuel + 1, l =>
    match l with
    | '"' :: r =>
      match parseStringBody r with
      | none => none
      | some (k, r1) =>
        match skipWs r1 with
        | ':' :: r2 =>
          match parseValue fuel (skipWs r2) with
          | none => none
          | some (v, r3) =>
            match skipWs r3 with
            | ',' :: r4 =>
              match parseObjItems fuel (skipWs r4) with
              | some (fs, rest) => some ((String.mk k, v) :: fs, rest)
              | none => none
            | '}' :: r4 => some ([(String.mk k, v)], r4)
            | _ => none
        | _ => none
    | _ => none

end

/-- The embedding of `JSON.parse`: `some` a value when parsing succeeds
with only whitespace left over, `none` when `JSON.parse` throws. -/
def jsonParse (s : String) : Option Json :=
  match parseValue (2 * s.toList.length + 8) (skipWs s.toList) with
  | some (v, rest) => if skipWs rest = [] then some v else none
  | none => none

/-- The lookahead of the regex `,(\s*[}\]])`: after the comma, a
(possibly empty) whitespace run and then a closing brace or bracket. -/
def wsThenClose (l : List Char) : Bool :=
  match l.dropWhile isRegexWs with
  | b :: _ => b == '\x7d' || b == ']'
  | [] => false

/-- Embedding of `jsonString.replace(/,(\s*[}\]])/g, '$1')` from
`src/server.js` line 109: a comma followed by optional whitespace and a
closing brace or bracket loses the comma.  The replacement keeps the
whitespace and the bracket, and no match can begin inside them (a match
begins only at a comma), so continuing the scan at the kept text is the
same as continuing after it, as the JavaScript global replace does. -/
def stripTrailingCommas : List Char → List Char
  | [] => []
  | ',' :: rest =>
    if wsThenClose rest then stripTrailingCommas rest
    else ',' :: stripTrailingCommas rest
  | c :: rest => c :: stripTrailingCommas rest

/-- Embedding of `.replace(/\\"/g, '"')` from `src/server.js` line 110:
each backslash-quote pair becomes a bare quote. -/
def unescapeQuotes : List Char → List Char
  | [] => []
  | [c] => [c]
  | c1 :: c2 :: rest =>
    if c1 == '\\' && c2 == '"' then '"' :: unescapeQuotes rest
    else c1 :: unescapeQuotes (c2 :: rest)

/-- Scanner for the `"\s*\n\s*"` replacement.  The state is `none`
while scanning normally; after an opening quote it is `some ws`, the
whitespace seen so far in reverse.  On a closing quote whose collected
whitespace contains a line feed, the match `"ws"` is replaced by a
space-separated quote pair and scanning resumes after it; otherwise the
scanned text is emitted and, as the regex engine would, the closing
quote is retried as an opener. -/
def fixQNQAux : List Char → Option (List Char) → List Char
  | [], none => []
  | [], some ws => '"' :: ws.reverse
  | c :: rest, none =>
    if c = '"' then fixQNQAux rest (some [])
    else c :: fixQNQAux rest none
  | c :: rest, some ws =>
    if isRegexWs c then fixQNQAux rest (some (c :: ws))
    else if c = '"' then
      if '\n' ∈ ws then '"' :: ' ' :: '"' :: fixQNQAux rest none
      else '"' :: ws.reverse ++ fixQNQAux rest (some [])
    else '"' :: ws.reverse ++ (c :: fixQNQAux rest none)

/-- Embedding of `.replace(/"\s*\n\s*"/g, '" "')` from `src/server.js`
line 111: two quotes separated by whitespace containing at least one
line feed collapse to a space-separated quote pair.  The regex `\s*`
pieces are greedy with backtracking, which is equivalent to: the whole
span between the quotes is whitespace and contains a line feed. -/
def fixQuoteNlQuote (l : List Char) : List Char :=
  fixQNQAux l none

/-- Embedding of `.replace(/\n/g, ' ')` from `src/server.js` line 112. -/
def newlinesToSpaces (l : List Char) : List Char :=
  l.map (fun c => if c == '\n' then ' ' else c)

/-- Scanner for `\s+` replacement: `afterWs` records whether the
previous character belonged to a whitespace run already replaced. -/
def collapseWsAux : List Char → Bool → List Char
  | [], _ => []
  | c :: rest, afterWs =>
    if isRegexWs c then
      if afterWs then collapseWsAux rest true
      else ' ' :: collapseWsAux rest true
    else c :: collapseWsAux rest false

/-- Embedding of `.replace(/\s+/g, ' ')` from `src/server.js` line 113:
every maximal whitespace run becomes a single space. -/
def collapseWs (l : List Char) : List Char :=
  collapseWsAux l false

/-- Embedding of `.trim()` from `src/server.js` line 114 (ASCII
whitespace). -/
def jsTrim (l : List Char) : List Char :=
  ((l.dropWhile isRegexWs).reverse.dropWhile isRegexWs).reverse

/-- The full repair pass of `src/server.js` lines 108-114, in source
order. -/
def cleanJson (l : List Char) : List Char :=
  jsTrim (collapseWs (newlinesToSpaces (fixQuoteNlQuote (unescapeQuotes (stripTrailingCommas l)))))

/-- Index of the last occurrence of a character. -/
def lastIdxOf (c : Char) : List Char → Option Nat
  | [] => none
  | x :: xs =>
    match lastIdxOf c xs with
    | some j => some (j + 1)
    | none => if x == c then some 0 else none

/-- Embedding of `content.match(/\[[\s\S]*\]/)` from `src/server.js`
line 81.  The leftmost match starts at the first `[` of the content and
the greedy `[\s\S]*` extends it to the last `]`; a match exists exactly
when some `[` is followed, later, by some `]`. -/
def greedyArrayMatch (l : List Char) : Option (List Char) :=
  match l.dropWhile (fun c => c != '[') with
  | [] => none
  | _ :: t =>
    match lastIdxOf ']' t with
    | none => none
    | some j => some ('[' :: t.take (j + 1))

/-- The backtick character, compared by code point. -/
def isBacktickChar (c : Char) : Bool :=
  c.toNat == 96

/-- Consume three backticks, returning the rest. -/
def fenceTicks : List Char → Option (List Char)
  | a :: b :: c :: r =>
    if isBacktickChar a && isBacktickChar b && isBacktickChar c then some r
    else none
  | _ => none

/-- The lazy piece `[\s\S]*?\]\s*` followed by three closing backticks:
scanning left to right, find the first `]` after which, skipping
whitespace, three backticks follow; return the characters before that
`]` and the input after the closing fence. -/
def lazyCloseFence : List Char → Option (List Char × List Char)
  | [] => none
  | ']' :: r =>
    match fenceTicks (r.dropWhile isRegexWs) with
    | some rest => some ([], rest)
    | none =>
      match lazyCloseFence r with
      | some (mid, rest) => some (']' :: mid, rest)
      | none => none
  | c :: r =>
    match lazyCloseFence r with
    | some (mid, rest) => some (c :: mid, rest)
    | none => none

/-- Body of the fenced-block pattern after the opening backticks and
the optional `json` tag: `\s*(\[[\s\S]*?\])\s*` and the closing fence,
returning the captured array literal. -/
def fencedBody (r : List Char) : Option (List Char) :=
  match r.dropWhile isRegexWs with
  | c :: u =>
    if c = '[' then
      match lazyCloseFence u with
      | some (mid, _) => some ('[' :: mid ++ [']'])
      | none => none
    else none
  | [] => none

/-- Attempt the fenced-block pattern at the current position.  The
greedy optional group `(?:json)?` tries to consume a `json` tag first
and falls back to the untagged reading. -/
def fencedAt (l : List Char) : Option (List Char) :=
  match fenceTicks l with
  | none => none
  | some r =>
    if r.take 4 = ['j', 's', 'o', 'n'] then
      match fencedBody (r.drop 4) with
      | some cap => some cap
      | none => fencedBody r
    else fencedBody r

/-- Embedding of the fenced-code-block search
`content.match(/```(?:json)?\s*(\[[\s\S]*?\])\s*```/)` from
`src/server.js` line 84, returning the captured group that line 86
installs as the candidate: leftmost position at which the pattern
matches. -/
def fencedSearch : List Char → Option (List Char)
  | [] => none
  | c :: t =>
    match fencedAt (c :: t) with
    | some cap => some cap
    | none => fencedSearch t

/-- The hardcoded fallback quiz of `src/server.js` lines 123-149,
returned when both parse attempts fail. -/
def fallbackQuestions : Json :=
  Json.arr
    [ Json.obj
        [ ("question", Json.str "Based on the transcript, what was the main topic discussed?"),
          ("options", Json.arr [Json.str "Technology", Json.str "Education", Json.str "Entertainment", Json.str "Business"]),
          ("correct", Json.num "0") ],
      Json.obj
        [ ("question", Json.str "What key concept was emphasized in the content?"),
          ("options", Json.arr [Json.str "Innovation", Json.str "Learning", Json.str "Growth", Json.str "Success"]),
          ("correct", Json.num "1") ],
      Json.obj
        [ ("question", Json.str "According to the transcript, what approach was recommended?"),
          ("options", Json.arr [Json.str "Traditional methods", Json.str "Modern techniques", Json.str "Hybrid approach", Json.str "Custom solutions"]),
          ("correct", Json.num "2") ],
      Json.obj
        [ ("question", Json.str "What was the primary goal mentioned?"),
          ("options", Json.arr [Json.str "Efficiency", Json.str "Quality", Json.str "Understanding", Json.str "Implementation"]),
          ("correct", Json.num "2") ],
      Json.obj
        [ ("question", Json.str "What conclusion can be drawn from the content?"),
          ("options", Json.arr [Json.str "More research needed", Json.str "Goals achieved", Json.str "Progress made", Json.str "Challenges remain"]),
          ("correct", Json.num "2") ] ]

/-- The error thrown at `src/server.js` line 92 when no candidate is
found. -/
def noJsonMsg : String := "Could not find valid JSON in AI response"

/-- Lines 98-151 of `src/server.js`: parse the candidate as-is; on
failure repair it and parse once more; on a second failure return the
hardcoded fallback quiz. -/
def parseCleanFallback (cand : List Char) : Except String Json :=
  match jsonParse (String.mk cand) with
  | some q => Except.ok q
  | none =>
    match jsonParse (String.mk (cleanJson cand)) with
    | some q => Except.ok q
    | none => Except.ok fallbackQuestions

/-- Lines 81-151 of `src/server.js`: locate a candidate array literal
by the greedy bracket match, else by the fenced-block match, else throw
the no-JSON error; then parse/repair/fall back. -/
def extractQuestions (content : String) : Except String Json :=
  match greedyArrayMatch content.toList with
  | some cand => parseCleanFallback cand
  | none =>
    match fencedSearch content.toList with
    | some cand => parseCleanFallback cand
    | none => Except.error noJsonMsg

/-- Outcome of the `fetch` to the chat-completion endpoint, as consumed
by `src/server.js` lines 62-76: either a non-2xx status with its body
text, or a 2xx response whose decoded content is the model text.  The
network is a parameter of the embedding. -/
inductive NetResp where
  | ok (content : String) : NetResp
  | notOk (status : Nat) (body : String) : NetResp

/-- Line 16 of `src/server.js`: the credential is missing when the
environment variable is unset, empty (falsy), or the placeholder. -/
def keyMissing (k : Option String) : Bool :=
  match k with
  | none => true
  | some s => s.isEmpty || s == "your_openrouter_api_key_here"

/-- Embedding of `generateQuizQuestions` from `src/server.js` lines
13-156.  `Except.error` carries the message of a thrown `Error`; the
outer catch of lines 152-155 rethrows, so every thrown error
propagates.  The prompt built from the transcript only feeds the
network call, whose response is the `net` parameter. -/
def generateQuizQuestions (apiKey : Option String) (net : NetResp) (transcript : String) :
    Except String Json :=
  if keyMissing apiKey then
    Except.error "OpenRouter API key not configured. Please add your API key to the .env file."
  else
    match net with
    | NetResp.notOk status body =>
      if status = 401 then
        Except.error "Invalid OpenRouter API key. Please check your API key in the .env file."
      else if status = 429 then
        Except.error "Rate limit exceeded. Please try again later."
      else
        Except.error ("OpenRouter API error: " ++ toString status ++ " - " ++ body)
    | NetResp.ok content => extractQuestions content

/-- A JavaScript value passed as `videoId`: either a string or some
non-string value (undefined, null, a number, ...).  The validation at
`src/transcript.js` line 6 rejects every non-string and the empty
string (which is falsy). -/
inductive JsInput where
  | jstr (s : String) : JsInput
  | nonString : JsInput
deriving DecidableEq

/-- A caption fragment as supplied by the provider; only `text` is
consumed by the code. -/
structure Caption where
  text : String
  start : Int
  duration : Int
deriving DecidableEq

/-- A value thrown by the captions provider: either one whose `message`
property is a string (every `Error` is), or one without a string
`message`, on which the catch handler's `error.message.includes(...)`
itself throws a `TypeError`. -/
inductive Thrown where
  | withMsg (m : String) : Thrown
  | noStringMsg : Thrown
deriving DecidableEq

/-- Result of `getYouTubeTranscript`: the transcript text, or the
`{error}` object returned through the success channel. -/
inductive TranscriptOut where
  | text (s : String) : TranscriptOut
  | errObj (e : String) : TranscriptOut
deriving DecidableEq

/-- Embedding of `transcript.split(' ')`: split on each single space
character, keeping empty segments, as JavaScript does. -/
def spaceSegs : List Char → List (List Char)
  | [] => [[]]
  | c :: rest =>
    if c == ' ' then [] :: spaceSegs rest
    else
      match spaceSegs rest with
      | s :: ss => (c :: s) :: ss
      | [] => [[c]]

/-- `transcript.split(' ').length` from `src/transcript.js` line 25. -/
def jsSplitSpaceLen (s : String) : Nat :=
  (spaceSegs s.toList).length

/-- Line 6 of `src/transcript.js`: `!videoId || typeof videoId !==
'string'` rejects non-strings and the empty string. -/
def validVideoId : JsInput → Bool
  | JsInput.jstr s => !s.isEmpty
  | JsInput.nonString => false

/-- Sequence-at-the-start test, helper for the substring check. -/
def startsWithSeq : List Char → List Char → Bool
  | [], _ => true
  | _ :: _, [] => false
  | n :: ns, h :: hs => n == h && startsWithSeq ns hs

/-- Embedding of `String.prototype.includes`: the needle occurs as a
contiguous subsequence of the haystack. -/
def hasSubSeq (needle : List Char) : List Char → Bool
  | [] => needle.isEmpty
  | c :: t => startsWithSeq needle (c :: t) || hasSubSeq needle t

/-- The catch handler of `src/transcript.js` lines 31-40, classifying a
string message by substring containment. -/
def classifyCatch (m : String) : String :=
  if hasSubSeq "No captions".toList m.toList then
    "No captions available for this video. Please try a video with subtitles."
  else if hasSubSeq "Invalid video ID".toList m.toList then
    "Invalid YouTube video ID provided"
  else
    "Failed to extract transcript. Please try another video."

/-- The try block of `src/transcript.js` lines 4-29: validation,
provider call, empty check, concatenation, quality gate.  A provider
resolution to a null-ish value is folded into the empty list, which the
same line 17 check catches. -/
def transcriptTry (videoId : JsInput) (provider : Except Thrown (List Caption)) :
    Except Thrown TranscriptOut :=
  if !validVideoId videoId then
    Except.error (Thrown.withMsg "Invalid video ID provided")
  else
    match provider with
    | Except.error t => Except.error t
    | Except.ok captions =>
      if captions.length = 0 then
        Except.error (Thrown.withMsg "No captions found for this video")
      else
        let transcript := String.intercalate " " (captions.map Caption.text)
        if jsSplitSpaceLen transcript < 50 then
          Except.ok (TranscriptOut.errObj "Not enough reliable information in the transcript")
        else
          Except.ok (TranscriptOut.text transcript)

/-- Embedding of `getYouTubeTranscript` from `src/transcript.js`.  The
outer `Except.error ()` marks an exception escaping the function: the
catch handler reads `error.message.includes(...)`, which throws a
`TypeError` when the thrown value has no string `message`. -/
def getYouTubeTranscript (videoId : JsInput) (provider : Except Thrown (List Caption)) :
    Except Unit TranscriptOut :=
  match transcriptTry videoId provider with
  | Except.ok r => Except.ok r
  | Except.error (Thrown.withMsg m) => Except.ok (TranscriptOut.errObj (classifyCatch m))
  | Except.error Thrown.noStringMsg => Except.error ()

/-- Word count in the sense of the specification's quality gate: split
on whitespace and count tokens, a token being a maximal nonempty run of
non-whitespace characters.  This is the claimed counting method, to be
compared with the code's `split(' ').length`. -/
def wordsAux : List Char → Bool → Nat
  | [], _ => 0
  | c :: r, inWord =>
    if isRegexWs c then wordsAux r false
    else (if inWord then 0 else 1) + wordsAux r true

/-- Number of whitespace-separated words of a string. -/
def wsWordCount (s : String) : Nat :=
  wordsAux s.toList false

/-- The QuizQuestion invariant of the specification, as a checker on a
parsed question object: an `options` array of exactly 4 strings and a
`correct` integer index that validly indexes it (0 ≤ correct ≤ 3). -/
def questionOk (q : Json) : Bool :=
  match q with
  | Json.obj fields =>
    (match fields.lookup "options" with
     | some (Json.arr opts) =>
       opts.length == 4 &&
       opts.all (fun o => match o with | Json.str _ => true | _ => false) &&
       (match fields.lookup "correct" with
        | some (Json.num lex) =>
          match numLexInt lex with
          | some n => (0 ≤ n && n ≤ 3) && n < (opts.length : Int)
          | none => false
        | _ => false)
     | _ => false)
  | _ => false

/-- Some position holds `[` and a later position holds `]`: exactly the
condition for the greedy array regex of line 81 to match. -/
def HasBracketPair (l : List Char) : Prop :=
  ∃ i j : Nat, i < j ∧ l[i]? = some '[' ∧ l[j]? = some ']'

/-- The model output of the specification's sixth testable property:
prose followed by a single-question array. -/
def c6Content : String :=
  "Sure! [\x7b\"question\":\"Q\",\"options\":[\"A\",\"B\",\"C\",\"D\"],\"correct\":1\x7d]"

/-- A transcript of 30 words separated by double spaces: fewer than 50
whitespace-separated words, but 59 single-space segments. -/
def c3Text : String :=
  String.intercalate "  " (List.replicate 30 "a")

/-- A transcript of 50 words separated by line feeds: at least 50
whitespace-separated words, but a single single-space segment. -/
def c4Text : String :=
  String.intercalate "\n" (List.replicate 50 "w")

/-- Alphanumeric ASCII character. -/
def isAlnum (c : Char) : Bool :=
  (48 ≤ c.toNat && c.toNat ≤ 57) || (65 ≤ c.toNat && c.toNat ≤ 90) ||
    (97 ≤ c.toNat && c.toNat ≤ 122)

/-- One array element of the trailing-comma family: a double-quoted
string followed by a comma. -/
def encodeItemTC (s : String) : List Char :=
  '"' :: s.toList ++ ['"', ',']

/-- An array literal of quoted strings in which every element, the last
included, is followed by a comma: valid JSON except for the trailing
comma before the closing bracket. -/
def tcArrayLit (ss : List String) : List Char :=
  '[' :: (ss.map encodeItemTC).flatten ++ [']']

/-- The same elements serialized strictly, commas only between
elements. -/
def strictItems : List String → List Char
  | [] => []
  | [s] => '"' :: s.toList ++ ['"']
  | s :: rest => '"' :: s.toList ++ ['"', ','] ++ strictItems rest

/-- The strict array literal the repair pass should produce. -/
def strictArrayLit (ss : List String) : List Char :=
  '[' :: strictItems ss ++ [']']

/-- A model output wrapping the trailing-comma array literal in a
fenced code block tagged `json`. -/
def fencedTC (ss : List String) : String :=
  String.mk ("```json\n".toList ++ tcArrayLit ss ++ "\n```".toList)

/-- A fenced model output whose array literal is valid JSON except for
a trailing comma, and whose single string contains an escaped quote:
direct parse of the candidate fails on the trailing comma, and the
repair pass turns the escape `\"` into a bare quote, corrupting the
string. -/
def c5CexContent : String :=
  "```json\n[\"a\\\"b\",]\n```"

/-- The candidate the greedy match extracts from `c5CexContent`. -/
def c5CexCandidate : List Char :=
  "[\"a\\\"b\",]".toList

/-- The counterexample candidate with its trailing comma removed, which
is valid JSON: the candidate is in the claimed class. -/
def c5CexRepairedByHand : String :=
  "[\"a\\\"b\"]"

/-!
### Theorems
-/

/-- C10: the hardcoded fallback quiz satisfies the QuizQuestion
invariant: it is an array of exactly 5 questions, each with exactly 4
string options and a `correct` integer in [0,3] that validly indexes
its options sequence. -/
theorem fallback_satisfies_invariant :
    ∃ qs, fallbackQuestions = Json.arr qs ∧ qs.length = 5 ∧
      qs.all questionOk = true :=
  ⟨_, rfl, rfl, rfl⟩

/-- C6: on the prose-plus-array model output, extraction locates the
bracketed array via the greedy match and parses it directly, returning
a one-element quiz whose single question has `correct` equal to the
number 1. -/
theorem c6_prose_array_extracted :
    ∃ q fields,
      extractQuestions c6Content = Except.ok (Json.arr [q]) ∧
      q = Json.obj fields ∧
      fields.lookup "correct" = some (Json.num "1") ∧
      numLexInt "1" = some 1 :=
  ⟨_, _, rfl, rfl, rfl, rfl⟩

/-- C7: with the credential absent or equal to the placeholder,
`generateQuizQuestions` fails with the missing-credential error for
every transcript, and the result is the same for every network
behaviour: the check precedes the network call. -/
theorem missing_credential_fails (k : Option String) (net : NetResp) (t : String)
    (h : k = none ∨ k = some "your_openrouter_api_key_here") :
    generateQuizQuestions k net t =
      Except.error "OpenRouter API key not configured. Please add your API key to the .env file." := by
  rcases h with h | h <;> subst h <;> rfl

/-- Witness for C7 at a concrete absent credential. -/
theorem missing_credential_fails_witness :
    generateQuizQuestions none (NetResp.ok "whatever") "t" =
      Except.error "OpenRouter API key not configured. Please add your API key to the .env file." :=
  missing_credential_fails none (NetResp.ok "whatever") "t" (Or.inl rfl)

/-- C8: a non-string or empty videoId yields the invalid-id error
object, and the result is the same for every provider behaviour: the
validation precedes the provider call. -/
theorem invalid_video_id_rejected (v : JsInput) (p : Except Thrown (List Caption))
    (h : v = JsInput.nonString ∨ v = JsInput.jstr "") :
    getYouTubeTranscript v p =
      Except.ok (TranscriptOut.errObj "Invalid YouTube video ID provided") := by
  rcases h with h | h <;> subst h <;> rfl

/-- Witness for C8 at the empty-string videoId. -/
theorem invalid_video_id_rejected_witness :
    getYouTubeTranscript (JsInput.jstr "") (Except.ok [⟨"hello", 0, 1⟩]) =
      Except.ok (TranscriptOut.errObj "Invalid YouTube video ID provided") :=
  invalid_video_id_rejected _ _ (Or.inr rfl)

/-- C3 counterexample: a provider result whose concatenated text has 30
whitespace-separated words (so fewer than 50) on which the code returns
the transcript text, not the quality-gate error: the code counts
`split(' ')` segments (59 here), not whitespace-separated words. -/
theorem c3_whitespace_count_cex :
    wsWordCount c3Text < 50 ∧
    getYouTubeTranscript (JsInput.jstr "vid") (Except.ok [⟨c3Text, 0, 1⟩]) =
      Except.ok (TranscriptOut.text c3Text) :=
  ⟨by decide, rfl⟩

/-- C3 (amended): the code splits the concatenated transcript on the
single space character, counting empty segments; whenever that count is
below 50 it returns the quality-gate error object instead of the
transcript text. -/
theorem c3_amended_space_count (vid : String) (caps : List Caption)
    (hv : vid ≠ "") (hc : caps ≠ [])
    (hcount : jsSplitSpaceLen (String.intercalate " " (caps.map Caption.text)) < 50) :
    getYouTubeTranscript (JsInput.jstr vid) (Except.ok caps) =
      Except.ok (TranscriptOut.errObj "Not enough reliable information in the transcript") := by
  have hv' : validVideoId (JsInput.jstr vid) = true := by
    have h2 : ¬ vid.isEmpty := fun hh => hv ((String.isEmpty_iff vid).mp hh)
    simp [validVideoId, h2]
  have hl : ¬(caps.length = 0) := by
    simpa [List.length_eq_zero] using hc
  unfold getYouTubeTranscript transcriptTry
  simp [hv', hl, hcount]

/-- Witness for the amended C3 at a one-word transcript. -/
theorem c3_amended_space_count_witness :
    getYouTubeTranscript (JsInput.jstr "v") (Except.ok [⟨"hi", 0, 1⟩]) =
      Except.ok (TranscriptOut.errObj "Not enough reliable information in the transcript") :=
  c3_amended_space_count "v" [⟨"hi", 0, 1⟩] (by decide) (by decide) (by decide)

set_option maxRecDepth 20000 in
/-- C4 counterexample: a provider result whose concatenated text has 50
whitespace-separated words, on which the code nevertheless returns the
quality-gate error: the words are separated by line feeds, so the
`split(' ')` segment count is 1. -/
theorem c4_whitespace_count_cex :
    50 ≤ wsWordCount c4Text ∧
    getYouTubeTranscript (JsInput.jstr "vid") (Except.ok [⟨c4Text, 0, 1⟩]) =
      Except.ok (TranscriptOut.errObj "Not enough reliable information in the transcript") :=
  ⟨by decide, rfl⟩

/-- C4 (amended): for a valid videoId and a provider result whose
space-joined concatenation has at least 50 `split(' ')` segments,
`getTranscript` returns exactly the fragment texts joined with a single
space, in provider order. -/
theorem c4_amended_space_count (vid : String) (caps : List Caption)
    (hv : vid ≠ "")
    (hcount : 50 ≤ jsSplitSpaceLen (String.intercalate " " (caps.map Caption.text))) :
    getYouTubeTranscript (JsInput.jstr vid) (Except.ok caps) =
      Except.ok (TranscriptOut.text (String.intercalate " " (caps.map Caption.text))) := by
  have hc : caps ≠ [] := by
    rintro rfl
    exact absurd hcount (by decide)
  have hv' : validVideoId (JsInput.jstr vid) = true := by
    have h2 : ¬ vid.isEmpty := fun hh => hv ((String.isEmpty_iff vid).mp hh)
    simp [validVideoId, h2]
  have hl : ¬(caps.length = 0) := by
    simpa [List.length_eq_zero] using hc
  have hw : ¬(jsSplitSpaceLen (String.intercalate " " (caps.map Caption.text)) < 50) := by
    omega
  unfold getYouTubeTranscript transcriptTry
  simp [hv', hl, hw]

set_option maxRecDepth 20000 in
/-- Witness for the amended C4 at a 50-word transcript. -/
theorem c4_amended_space_count_witness :
    getYouTubeTranscript (JsInput.jstr "v")
        (Except.ok [⟨String.intercalate " " (List.replicate 50 "w"), 0, 1⟩]) =
      Except.ok (TranscriptOut.text
        (String.intercalate " "
          ([Caption.mk (String.intercalate " " (List.replicate 50 "w")) 0 1].map Caption.text))) :=
  c4_amended_space_count "v" [⟨String.intercalate " " (List.replicate 50 "w"), 0, 1⟩]
    (by decide) (by decide)

/-- C2 counterexample: when the provider throws a value without a
string `message` (for example a bare string or number), the catch
handler's `error.message.includes(...)` itself throws, and the failure
escapes `getYouTubeTranscript` instead of being mapped to an `{error}`
value. -/
theorem c2_nonstring_message_escapes :
    getYouTubeTranscript (JsInput.jstr "abc") (Except.error Thrown.noStringMsg) =
      Except.error () :=
  rfl

/-- C2 (amended): for every provider behaviour other than throwing a
value without a string `message`, `getYouTubeTranscript` never
propagates a failure, and every thrown condition with a string message
is mapped to an `{error}` value. -/
theorem c2_string_message_never_escapes (v : JsInput) (p : Except Thrown (List Caption))
    (h : p ≠ Except.error Thrown.noStringMsg) :
    (∃ out, getYouTubeTranscript v p = Except.ok out) ∧
    (∀ m, p = Except.error (Thrown.withMsg m) →
      ∃ e, getYouTubeTranscript v p = Except.ok (TranscriptOut.errObj e)) := by
  cases p with
  | error t =>
    cases t with
    | withMsg m =>
      unfold getYouTubeTranscript transcriptTry
      by_cases hv : validVideoId v <;> simp [hv]
    | noStringMsg => exact absurd rfl h
  | ok caps =>
    refine ⟨?_, fun m hm => Except.noConfusion hm⟩
    unfold getYouTubeTranscript transcriptTry
    by_cases hv : validVideoId v
    · by_cases hl : caps.length = 0
      · simp [hv, hl]
      · by_cases hw : jsSplitSpaceLen (String.intercalate " " (caps.map Caption.text)) < 50
        · simp [hv, hl, hw]
        · simp [hv, hl, hw]
    · simp [hv]

/-- Witness for the amended C2 at a provider throwing an `Error` with
an unclassified message. -/
theorem c2_string_message_never_escapes_witness :
    (∃ out, getYouTubeTranscript (JsInput.jstr "abc")
        (Except.error (Thrown.withMsg "boom")) = Except.ok out) ∧
    (∀ m, (Except.error (Thrown.withMsg "boom") : Except Thrown (List Caption)) =
        Except.error (Thrown.withMsg m) →
      ∃ e, getYouTubeTranscript (JsInput.jstr "abc")
        (Except.error (Thrown.withMsg "boom")) = Except.ok (TranscriptOut.errObj e)) :=
  c2_string_message_never_escapes (JsInput.jstr "abc")
    (Except.error (Thrown.withMsg "boom")) (by simp)

/-- C1 counterexample: on model output containing no bracketed array
(and hence no fenced block), `generateQuizQuestions` throws the no-JSON
error, which the outer catch rethrows; it does not return the fallback
quiz. -/
theorem c1_no_json_throws_cex :
    generateQuizQuestions (some "sk-test") (NetResp.ok "Sure, here is the quiz") "t" =
      Except.error noJsonMsg :=
  rfl

/-- A last-index search fails exactly on characters that do not
occur. -/
theorem lastIdxOf_eq_none_iff (c : Char) (l : List Char) :
    lastIdxOf c l = none ↔ c ∉ l := by
  induction l with
  | nil => simp [lastIdxOf]
  | cons x xs ih =>
    cases h : lastIdxOf c xs with
    | some j =>
      have hmem : c ∈ xs := by
        by_contra hn
        rw [ih.mpr hn] at h
        exact Option.noConfusion h
      simp [lastIdxOf, h, hmem]
    | none =>
      have hn : c ∉ xs := ih.mp h
      by_cases hx : x = c <;> simp [lastIdxOf, h, hn, hx]
      exact fun hcon => hx hcon.symm

/-- Prepending a non-bracket character does not change whether a
bracket pair exists. -/
theorem hasPair_cons_ne (c : Char) (t : List Char) (hc : ¬(c = '[')) :
    HasBracketPair (c :: t) ↔ HasBracketPair t := by
  constructor
  · rintro ⟨i, j, hij, hi, hj⟩
    match i, j with
    | 0, _ =>
      rw [List.getElem?_cons_zero] at hi
      exact absurd (by injection hi) hc
    | _ + 1, 0 => omega
    | i + 1, j + 1 =>
      exact ⟨i, j, by omega, by simpa using hi, by simpa using hj⟩
  · rintro ⟨i, j, hij, hi, hj⟩
    exact ⟨i + 1, j + 1, by omega, by simpa, by simpa⟩

/-- Against a leading `[`, a bracket pair exists exactly when a `]`
follows. -/
theorem hasPair_lsq (t : List Char) :
    HasBracketPair ('[' :: t) ↔ ']' ∈ t := by
  constructor
  · rintro ⟨i, j, hij, hi, hj⟩
    match j with
    | 0 => omega
    | j + 1 =>
      rw [List.getElem?_cons_succ] at hj
      exact List.mem_iff_getElem?.mpr ⟨j, hj⟩
  · intro hm
    obtain ⟨n, hn⟩ := List.mem_iff_getElem?.mp hm
    exact ⟨0, n + 1, by omega, by simp, by simpa⟩

/-- The greedy array regex fails to match exactly when no `[` is
followed, later, by a `]`. -/
theorem greedy_none_iff (l : List Char) :
    greedyArrayMatch l = none ↔ ¬ HasBracketPair l := by
  induction l with
  | nil =>
    constructor
    · rintro - ⟨i, j, hij, hi, hj⟩
      simp at hi
    · intro _
      rfl
  | cons c t ih =>
    by_cases hc : c = '['
    · subst hc
      unfold greedyArrayMatch
      have hd : ('[' :: t).dropWhile (fun x => x != '[') = '[' :: t := by
        simp [List.dropWhile]
      rw [hd]
      cases hj : lastIdxOf ']' t with
      | none =>
        simp only [hj]
        constructor
        · intro _
          rw [hasPair_lsq]
          exact (lastIdxOf_eq_none_iff ']' t).mp hj
        · intro _
          trivial
      | some j =>
        have hmem : ']' ∈ t := by
          by_contra hn
          rw [(lastIdxOf_eq_none_iff ']' t).mpr hn] at hj
          exact Option.noConfusion hj
        simp [hj, hasPair_lsq, hmem]
    · unfold greedyArrayMatch
      have hbne : (c != '[') = true := bne_iff_ne.mpr hc
      have hd : (c :: t).dropWhile (fun x => x != '[') = t.dropWhile (fun x => x != '[') := by
        simp [List.dropWhile, hbne]
      rw [hd, hasPair_cons_ne c t hc]
      exact ih

/-- The parse-repair-fallback stage never throws. -/
theorem parseCleanFallback_ok (cand : List Char) :
    ∃ j, parseCleanFallback cand = Except.ok j := by
  unfold parseCleanFallback
  cases h1 : jsonParse (String.mk cand) with
  | some q => simp
  | none =>
    cases h2 : jsonParse (String.mk (cleanJson cand)) with
    | some q => simp
    | none => simp

/-- A successful lazy fence close implies a closing bracket in the
scanned text. -/
theorem lazyCloseFence_mem (u : List Char) (mid rest : List Char)
    (h : lazyCloseFence u = some (mid, rest)) : ']' ∈ u := by
  induction u generalizing mid rest with
  | nil => simp [lazyCloseFence] at h
  | cons c r ih =>
    by_cases hc : c = ']'
    · subst hc
      simp
    · rcases hr : lazyCloseFence r with - | ⟨m2, r2⟩
      · simp [lazyCloseFence, hc, hr] at h
      · exact List.mem_cons_of_mem _ (ih m2 r2 hr)

/-- A successful fenced body splits the input at an opening bracket
with a later closing bracket. -/
theorem fencedBody_pair (r cap : List Char) (h : fencedBody r = some cap) :
    ∃ a u, r = a ++ '[' :: u ∧ ']' ∈ u := by
  unfold fencedBody at h
  split at h
  case h_2 => exact Option.noConfusion h
  case h_1 c u hd =>
    split at h
    case isFalse => exact Option.noConfusion h
    case isTrue hcb =>
      split at h
      case h_2 => exact Option.noConfusion h
      case h_1 p mid rest hl =>
        refine ⟨r.takeWhile isRegexWs, u, ?_, lazyCloseFence_mem u mid rest hl⟩
        conv_lhs => rw [← List.takeWhile_append_dropWhile (p := isRegexWs) (l := r)]
        rw [hd, hcb]

/-- A bracket pair in a decomposed list. -/
theorem hasPair_of_split (a u : List Char) (hm : ']' ∈ u) :
    HasBracketPair (a ++ '[' :: u) := by
  obtain ⟨n, hn⟩ := List.mem_iff_getElem?.mp hm
  refine ⟨a.length, a.length + n + 1, by omega, ?_, ?_⟩
  · rw [List.getElem?_append_right (Nat.le_refl _)]
    simp
  · rw [List.getElem?_append_right (by omega)]
    have harith : a.length + n + 1 - a.length = n + 1 := by omega
    rw [harith]
    simpa using hn

/-- A bracket pair survives prepending arbitrary text. -/
theorem hasPair_append_left (a s : List Char) (h : HasBracketPair s) :
    HasBracketPair (a ++ s) := by
  obtain ⟨i, j, hij, hi, hj⟩ := h
  refine ⟨a.length + i, a.length + j, by omega, ?_, ?_⟩
  · rw [List.getElem?_append_right (by omega)]
    have harith : a.length + i - a.length = i := by omega
    rw [harith]
    exact hi
  · rw [List.getElem?_append_right (by omega)]
    have harith : a.length + j - a.length = j := by omega
    rw [harith]
    exact hj

/-- A fenced-pattern match at a position implies a bracket pair
there. -/
theorem fencedAt_pair (l cap : List Char) (h : fencedAt l = some cap) :
    HasBracketPair l := by
  unfold fencedAt at h
  split at h
  case h_1 => exact Option.noConfusion h
  case h_2 r ht =>
    have hb : (∃ cap1, fencedBody (r.drop 4) = some cap1) ∨
        (∃ cap1, fencedBody r = some cap1) := by
      by_cases hj : r.take 4 = ['j', 's', 'o', 'n']
      · rw [if_pos hj] at h
        cases hfb : fencedBody (r.drop 4) with
        | some c1 => exact Or.inl ⟨c1, rfl⟩
        | none => rw [hfb] at h; exact Or.inr ⟨cap, h⟩
      · rw [if_neg hj] at h
        exact Or.inr ⟨cap, h⟩
    have hpr : HasBracketPair r := by
      rcases hb with ⟨c1, hc1⟩ | ⟨c1, hc1⟩
      · obtain ⟨a, u, heq, hm⟩ := fencedBody_pair _ _ hc1
        have hdrop : HasBracketPair (r.drop 4) := heq ▸ hasPair_of_split a u hm
        rw [← List.take_append_drop 4 r]
        exact hasPair_append_left _ _ hdrop
      · obtain ⟨a, u, heq, hm⟩ := fencedBody_pair _ _ hc1
        rw [heq]
        exact hasPair_of_split a u hm
    have hl3 : ∃ x y z, l = x :: y :: z :: r := by
      rcases l with - | ⟨a, - | ⟨b, - | ⟨c2, r0⟩⟩⟩ <;> simp [fenceTicks] at ht
      exact ⟨a, b, c2, by rw [ht.2]⟩
    obtain ⟨x, y, z, heql⟩ := hl3
    rw [heql, show x :: y :: z :: r = [x, y, z] ++ r from rfl]
    exact hasPair_append_left _ _ hpr

/-- A fenced-block search match implies a bracket pair in the
content. -/
theorem fencedSearch_pair (l cap : List Char) (h : fencedSearch l = some cap) :
    HasBracketPair l := by
  induction l with
  | nil => simp [fencedSearch] at h
  | cons c t ih =>
    cases hat : fencedAt (c :: t) with
    | some cp => exact fencedAt_pair _ _ hat
    | none =>
      unfold fencedSearch at h
      rw [hat] at h
      rw [show c :: t = [c] ++ t from rfl]
      exact hasPair_append_left _ _ (ih h)

/-- C1 (amended): on model output containing no bracketed array (no `[`
followed later by `]`), `generateQuizQuestions` propagates the no-JSON
error to its caller; the fallback quiz is returned only when a
candidate is found and both parse attempts fail. -/
theorem noJson_propagates (k : Option String) (content t : String)
    (hk : keyMissing k = false) (h : ¬ HasBracketPair content.toList) :
    generateQuizQuestions k (NetResp.ok content) t = Except.error noJsonMsg := by
  unfold generateQuizQuestions
  rw [hk]
  simp only [Bool.false_eq_true, if_false]
  unfold extractQuestions
  have hg : greedyArrayMatch content.toList = none := (greedy_none_iff _).mpr h
  have hf : fencedSearch content.toList = none := by
    cases hfs : fencedSearch content.toList with
    | none => rfl
    | some cap => exact absurd (fencedSearch_pair _ _ hfs) h
  rw [hg, hf]

/-- Witness for the amended C1 at a concrete bracket-free model
output. -/
theorem noJson_propagates_witness :
    generateQuizQuestions (some "sk-test") (NetResp.ok "no array here") "t" =
      Except.error noJsonMsg :=
  noJson_propagates (some "sk-test") "no array here" "t" rfl
    ((greedy_none_iff _).mp rfl)

/-- C9: if the greedy bracketed-array search finds no match, the
fenced-code-block search finds none either (its own pattern requires a
bracketed array), so the fenced branch never produces a candidate, and
extraction reaches the no-JSON branch exactly when the content has no
`[` followed later by `]`. -/
theorem c9_fenced_branch_dead (content : String) :
    (greedyArrayMatch content.toList = none → fencedSearch content.toList = none) ∧
    (extractQuestions content = Except.error noJsonMsg ↔ ¬ HasBracketPair content.toList) := by
  constructor
  · intro hg
    cases hfs : fencedSearch content.toList with
    | none => rfl
    | some cap =>
      exact absurd (fencedSearch_pair _ _ hfs) ((greedy_none_iff _).mp hg)
  · constructor
    · intro he
      cases hg : greedyArrayMatch content.toList with
      | some cand =>
        exfalso
        obtain ⟨j, hj⟩ := parseCleanFallback_ok cand
        have hok : extractQuestions content = Except.ok j := by
          unfold extractQuestions
          rw [hg]
          exact hj
        rw [hok] at he
        exact Except.noConfusion he
      | none => exact (greedy_none_iff _).mp hg
    · intro h
      have hg : greedyArrayMatch content.toList = none := (greedy_none_iff _).mpr h
      have hf : fencedSearch content.toList = none := by
        cases hfs : fencedSearch content.toList with
        | none => rfl
        | some cap => exact absurd (fencedSearch_pair _ _ hfs) h
      unfold extractQuestions
      rw [hg, hf]

/-- Witness for C9 at a concrete bracket-free content. -/
theorem c9_fenced_branch_dead_witness :
    fencedSearch ("hello world" : String).toList = none ∧
    (extractQuestions "hello world" = Except.error noJsonMsg ↔
      ¬ HasBracketPair ("hello world" : String).toList) :=
  ⟨(c9_fenced_branch_dead "hello world").1 rfl,
   (c9_fenced_branch_dead "hello world").2⟩

theorem alnum_char_facts (c : Char) (h : isAlnum c = true) :
    ¬(c = '"') ∧ ¬(c = '\\') ∧ ¬(c.toNat < 32) ∧ isRegexWs c = false ∧
    isJsonWs c = false ∧ ¬(c = '\n') ∧ ¬(c = ',') ∧ ¬(c = '[') ∧ ¬(c = ']') := by
  simp [isAlnum] at h
  refine ⟨?_, ?_, ?_, ?_, ?_, ?_, ?_, ?_, ?_⟩
  all_goals first
    | (intro heq; subst heq; revert h; decide)
    | skip
  · omega
  · simp only [isRegexWs, Bool.or_eq_false_iff, beq_eq_false_iff_ne, ne_eq]
    refine ⟨⟨⟨⟨⟨?_, ?_⟩, ?_⟩, ?_⟩, ?_⟩, ?_⟩ <;> (intro heq; subst heq; revert h; decide)
  · simp only [isJsonWs, Bool.or_eq_false_iff, beq_eq_false_iff_ne, ne_eq]
    refine ⟨⟨⟨?_, ?_⟩, ?_⟩, ?_⟩ <;> (intro heq; subst heq; revert h; decide)

theorem stripTC_cons_ne (c : Char) (l : List Char) (h : ¬(c = ',')) :
    stripTrailingCommas (c :: l) = c :: stripTrailingCommas l := by
  simp [stripTrailingCommas, h]

theorem parseStringBody_alnum (s rest : List Char) (h : s.all isAlnum) :
    parseStringBody (s ++ '"' :: rest) = some (s, rest) := by
  induction s with
  | nil => simp [parseStringBody]
  | cons c cs ih =>
    simp only [List.all_cons, Bool.and_eq_true] at h
    obtain ⟨h1, h2, h3, -, -, -, -, -, -⟩ := alnum_char_facts c h.1
    simp [parseStringBody, h1, h2, h3, ih h.2]

/-- The quote-unescape pass is the identity on backslash-free text. -/
theorem unescapeQuotes_id (l : List Char) (h : '\\' ∉ l) : unescapeQuotes l = l := by
  induction l with
  | nil => rfl
  | cons c tl ih =>
    have hc : ¬(c = '\\') := fun heq => h (heq ▸ List.mem_cons_self c tl)
    have htl : '\\' ∉ tl := fun hm => h (List.mem_cons_of_mem c hm)
    cases tl with
    | nil => simp [unescapeQuotes]
    | cons c2 t2 =>
      have hcond : (c == '\\' && c2 == '"') = false := by
        simp [hc]
      simp [unescapeQuotes, hcond, ih htl]

/-- The whitespace-collapse scanner is the identity on
whitespace-free text. -/
theorem collapseWsAux_id (l : List Char) (h : ∀ c ∈ l, isRegexWs c = false) :
    ∀ b, collapseWsAux l b = l := by
  induction l with
  | nil => intro b; rfl
  | cons c tl ih =>
    intro b
    have hc := h c (List.mem_cons_self c tl)
    simp [collapseWsAux, hc, ih (fun x hx => h x (List.mem_cons_of_mem c hx)) false]

/-- The newline replacement is the identity on newline-free text. -/
theorem newlinesToSpaces_id (l : List Char) (h : '\n' ∉ l) : newlinesToSpaces l = l := by
  induction l with
  | nil => rfl
  | cons c tl ih =>
    have hc : ¬(c = '\n') := fun heq => h (heq ▸ List.mem_cons_self c tl)
    have htl : '\n' ∉ tl := fun hm => h (List.mem_cons_of_mem c hm)
    simp [newlinesToSpaces, hc]
    simpa [newlinesToSpaces] using ih htl

/-- On newline-free input the scanner only ever copies: in the normal
state it is the identity, and in the candidate state it emits the
pending opening quote and whitespace unchanged. -/
theorem fixQNQAux_no_newline (l : List Char) (h : '\n' ∉ l) :
    fixQNQAux l none = l ∧
    ∀ ws, '\n' ∉ ws → fixQNQAux l (some ws) = '"' :: (ws.reverse ++ l) := by
  induction l with
  | nil =>
    refine ⟨rfl, fun ws _ => ?_⟩
    simp [fixQNQAux]
  | cons c rest ih =>
    have hrest : '\n' ∉ rest := fun hm => h (List.mem_cons_of_mem _ hm)
    have hcn : ¬(c = '\n') := fun heq => h (heq ▸ List.mem_cons_self c rest)
    obtain ⟨ih1, ih2⟩ := ih hrest
    constructor
    · by_cases hq : c = '"'
      · subst hq
        simp [fixQNQAux, ih2 [] (by simp)]
      · simp [fixQNQAux, hq, ih1]
    · intro ws hws
      by_cases hw : isRegexWs c = true
      · have : '\n' ∉ c :: ws := by
          intro hm
          rcases List.mem_cons.mp hm with heq | hm2
          · exact hcn heq.symm
          · exact hws hm2
        simp [fixQNQAux, hw, ih2 (c :: ws) this]
      · by_cases hq : c = '"'
        · subst hq
          simp [fixQNQAux, hw, hws, ih2 [] (by simp)]
        · simp [fixQNQAux, hw, hq, ih1]

/-- The quote-newline-quote pass is the identity on newline-free
text. -/
theorem fixQuoteNlQuote_id (l : List Char) (h : '\n' ∉ l) : fixQuoteNlQuote l = l :=
  (fixQNQAux_no_newline l h).1

/-- Trimming is the identity when neither end is whitespace. -/
theorem jsTrim_id (l : List Char) (h1 : l.dropWhile isRegexWs = l)
    (h2 : l.reverse.dropWhile isRegexWs = l.reverse) : jsTrim l = l := by
  unfold jsTrim
  rw [h1, h2, List.reverse_reverse]

/-- Scanning over comma-free text copies it. -/
theorem stripTC_append_ne (a l : List Char) (h : ∀ c ∈ a, ¬(c = ',')) :
    stripTrailingCommas (a ++ l) = a ++ stripTrailingCommas l := by
  induction a with
  | nil => rfl
  | cons c t ih =>
    rw [List.cons_append, stripTC_cons_ne c _ (h c (List.mem_cons_self c t)),
      ih (fun x hx => h x (List.mem_cons_of_mem c hx))]
    rfl

/-- Characters of a strictly serialized item list: quote, comma, or
alphanumeric. -/
theorem strictItems_chars (ss : List String)
    (hal : ∀ s ∈ ss, s.toList.all isAlnum = true) :
    ∀ c ∈ strictItems ss, c = '"' ∨ c = ',' ∨ isAlnum c = true := by
  induction ss with
  | nil => intro c hc; simp [strictItems] at hc
  | cons s t ih =>
    intro c hc
    cases t with
    | nil =>
      simp [strictItems] at hc
      rcases hc with rfl | hc | rfl
      · exact Or.inl rfl
      · exact Or.inr (Or.inr (List.all_eq_true.mp (hal s (List.mem_cons_self s [])) c hc))
      · exact Or.inl rfl
    | cons s2 t2 =>
      simp [strictItems] at hc
      rcases hc with rfl | hc | rfl | rfl | hc
      · exact Or.inl rfl
      · exact Or.inr (Or.inr (List.all_eq_true.mp (hal s (List.mem_cons_self s _)) c hc))
      · exact Or.inl rfl
      · exact Or.inr (Or.inl rfl)
      · exact ih (fun x hx => hal x (List.mem_cons_of_mem s hx)) c hc

/-- Characters of the trailing-comma item flattening: quote, comma, or
alphanumeric. -/
theorem tcItems_chars (ss : List String)
    (hal : ∀ s ∈ ss, s.toList.all isAlnum = true) :
    ∀ c ∈ (ss.map encodeItemTC).flatten, c = '"' ∨ c = ',' ∨ isAlnum c = true := by
  induction ss with
  | nil => intro c hc; simp at hc
  | cons s t ih =>
    intro c hc
    simp only [List.map_cons, List.flatten_cons, List.mem_append] at hc
    rcases hc with hc | hc
    · simp [encodeItemTC] at hc
      rcases hc with rfl | hc | rfl | rfl
      · exact Or.inl rfl
      · exact Or.inr (Or.inr (List.all_eq_true.mp (hal s (List.mem_cons_self s _)) c hc))
      · exact Or.inl rfl
      · exact Or.inr (Or.inl rfl)
    · exact ih (fun x hx => hal x (List.mem_cons_of_mem s hx)) c hc

/-- A comma whose lookahead fails is kept and scanning continues. -/
theorem stripTC_cons_comma_ne (R : List Char) (hw : wsThenClose R = false) :
    stripTrailingCommas (',' :: R) = ',' :: stripTrailingCommas R := by
  simp [stripTrailingCommas, hw]

/-- The trailing-comma strip turns the trailing-comma serialization
into the strict one. -/
theorem stripTC_items (ss : List String) (hne : ss ≠ [])
    (hal : ∀ s ∈ ss, s.toList.all isAlnum = true) :
    stripTrailingCommas ((ss.map encodeItemTC).flatten ++ [']']) = strictItems ss ++ [']'] := by
  induction ss with
  | nil => exact absurd rfl hne
  | cons s t ih =>
    have hs := hal s (List.mem_cons_self s t)
    have hinert : ∀ c ∈ '"' :: (s.toList ++ ['"']), ¬(c = ',') := by
      intro c hc
      simp at hc
      rcases hc with rfl | hc | rfl
      · decide
      · exact ((alnum_char_facts c (List.all_eq_true.mp hs c hc)).2.2.2.2.2.2).1
      · decide
    have hshape : ((s :: t).map encodeItemTC).flatten ++ [']'] =
        ('"' :: (s.toList ++ ['"'])) ++ ',' :: ((t.map encodeItemTC).flatten ++ [']']) := by
      simp [encodeItemTC]
    rw [hshape, stripTC_append_ne _ _ hinert]
    cases t with
    | nil =>
      have hconc : stripTrailingCommas (',' :: ((([] : List String).map encodeItemTC).flatten ++ [']'])) = [']'] := rfl
      rw [hconc]
      simp [strictItems]
    | cons s2 t2 =>
      have hR : (((s2 :: t2)).map encodeItemTC).flatten ++ [']'] =
          '"' :: (s2.toList ++ ['"', ','] ++ ((t2.map encodeItemTC).flatten ++ [']'])) := by
        simp [encodeItemTC]
      have hwtc : wsThenClose ((((s2 :: t2)).map encodeItemTC).flatten ++ [']']) = false := by
        rw [hR]
        rfl
      rw [stripTC_cons_comma_ne _ hwtc, ih (by simp) (fun x hx => hal x (List.mem_cons_of_mem s hx))]
      simp [strictItems]

/-- The full strip pass on the trailing-comma array literal. -/
theorem stripTC_tcArrayLit (ss : List String) (hne : ss ≠ [])
    (hal : ∀ s ∈ ss, s.toList.all isAlnum = true) :
    stripTrailingCommas (tcArrayLit ss) = strictArrayLit ss := by
  unfold tcArrayLit strictArrayLit
  rw [show ('[' : Char) :: (ss.map encodeItemTC).flatten ++ [']'] =
      ['['] ++ ((ss.map encodeItemTC).flatten ++ [']']) by simp]
  rw [stripTC_append_ne ['['] _ (by intro c hc; simp at hc; subst hc; decide)]
  rw [stripTC_items ss hne hal]
  simp

/-- Characters of the strict array literal. -/
theorem strictArrayLit_chars (ss : List String)
    (hal : ∀ s ∈ ss, s.toList.all isAlnum = true) :
    ∀ c ∈ strictArrayLit ss, c = '[' ∨ c = ']' ∨ c = '"' ∨ c = ',' ∨ isAlnum c = true := by
  intro c hc
  simp [strictArrayLit] at hc
  rcases hc with rfl | hc | rfl
  · exact Or.inl rfl
  · rcases strictItems_chars ss hal c hc with rfl | rfl | hA
    · exact Or.inr (Or.inr (Or.inl rfl))
    · exact Or.inr (Or.inr (Or.inr (Or.inl rfl)))
    · exact Or.inr (Or.inr (Or.inr (Or.inr hA)))
  · exact Or.inr (Or.inl rfl)

/-- The whole repair pass maps the trailing-comma literal to the strict
literal: the strip is the only pass that acts. -/
theorem cleanJson_tcArrayLit (ss : List String) (hne : ss ≠ [])
    (hal : ∀ s ∈ ss, s.toList.all isAlnum = true) :
    cleanJson (tcArrayLit ss) = strictArrayLit ss := by
  unfold cleanJson
  rw [stripTC_tcArrayLit ss hne hal]
  have hchars := strictArrayLit_chars ss hal
  have hbs : '\\' ∉ strictArrayLit ss := by
    intro hm
    rcases hchars '\\' hm with h | h | h | h | h <;> revert h <;> decide
  have hnl : '\n' ∉ strictArrayLit ss := by
    intro hm
    rcases hchars '\n' hm with h | h | h | h | h <;> revert h <;> decide
  have hws : ∀ c ∈ strictArrayLit ss, isRegexWs c = false := by
    intro c hm
    rcases hchars c hm with rfl | rfl | rfl | rfl | hA
    · decide
    · decide
    · decide
    · decide
    · exact (alnum_char_facts c hA).2.2.2.1
  rw [unescapeQuotes_id _ hbs, fixQuoteNlQuote_id _ hnl, newlinesToSpaces_id _ hnl]
  unfold collapseWs
  rw [collapseWsAux_id _ hws false]
  refine jsTrim_id _ ?_ ?_
  · rfl
  · have hrev : (strictArrayLit ss).reverse = ']' :: ((strictItems ss).reverse ++ ['[']) := by
      simp [strictArrayLit]
    rw [hrev]
    rfl

/-- One unfolding of the parser on a quoted alphanumeric string. -/
theorem parseValue_string (f : Nat) (s rest : List Char) (h : s.all isAlnum = true) :
    parseValue (f + 1) ('"' :: (s ++ '"' :: rest)) = some (Json.str (String.mk s), rest) := by
  rw [show parseValue (f + 1) ('"' :: (s ++ '"' :: rest)) =
      (match parseStringBody (s ++ '"' :: rest) with
       | some (sb, r2) => some (Json.str (String.mk sb), r2)
       | none => none) from rfl,
    parseStringBody_alnum s rest h]

/-- A closing bracket never begins a value. -/
theorem parseValue_rsq (g : Nat) (rest : List Char) :
    parseValue g (']' :: rest) = none := by
  cases g with
  | zero => rfl
  | succ g' => rfl

/-- The item loop rejects the trailing-comma serialization: after the
final comma it finds the closing bracket where a value is required,
exactly as `JSON.parse` rejects a trailing comma. -/
theorem parseArrItems_tc_none : ∀ (ss : List String) (f : Nat), ss ≠ [] →
    (∀ s ∈ ss, s.toList.all isAlnum = true) → ss.length + 1 ≤ f →
    parseArrItems f ((ss.map encodeItemTC).flatten ++ [']']) = none := by
  intro ss
  induction ss with
  | nil => intro f hne _ _; exact absurd rfl hne
  | cons s t ih =>
    intro f _ hal hf
    obtain ⟨g, rfl⟩ : ∃ g, f = g + 1 + 1 := ⟨f - 2, by simp at hf; omega⟩
    have hshape : ((s :: t).map encodeItemTC).flatten ++ [']'] =
        '"' :: (s.toList ++ '"' :: ',' :: ((t.map encodeItemTC).flatten ++ [']'])) := by
      simp [encodeItemTC]
    rw [hshape]
    rw [show parseArrItems (g + 1 + 1)
        ('"' :: (s.toList ++ '"' :: ',' :: ((t.map encodeItemTC).flatten ++ [']']))) =
        (match parseValue (g + 1)
            ('"' :: (s.toList ++ '"' :: ',' :: ((t.map encodeItemTC).flatten ++ [']']))) with
         | none => none
         | some (v, r) =>
           match skipWs r with
           | ',' :: r' =>
             match parseArrItems (g + 1) (skipWs r') with
             | some (vs, rest) => some (v :: vs, rest)
             | none => none
           | ']' :: r' => some ([v], r')
           | _ => none) from rfl]
    rw [parseValue_string g s.toList (',' :: ((t.map encodeItemTC).flatten ++ [']']))
      (hal s (List.mem_cons_self s t))]
    show (match parseArrItems (g + 1) (skipWs ((t.map encodeItemTC).flatten ++ [']'])) with
         | some (vs, rest) => some (Json.str (String.mk s.toList) :: vs, rest)
         | none => none) = none
    cases t with
    | nil =>
      cases g with
      | zero => rfl
      | succ g' => rfl
    | cons s2 t2 =>
      have hsh2 : ((s2 :: t2).map encodeItemTC).flatten ++ [']'] =
          '"' :: (s2.toList ++ '"' :: ',' :: ((t2.map encodeItemTC).flatten ++ [']'])) := by
        simp [encodeItemTC]
      have hrec : parseArrItems (g + 1) (((s2 :: t2).map encodeItemTC).flatten ++ [']']) = none := by
        apply ih (g + 1) (by simp) (fun x hx => hal x (List.mem_cons_of_mem s hx))
        simp at hf ⊢
        omega
      rw [hsh2] at hrec ⊢
      rw [show skipWs ('"' :: (s2.toList ++ '"' :: ',' :: ((t2.map encodeItemTC).flatten ++ [']']))) =
          '"' :: (s2.toList ++ '"' :: ',' :: ((t2.map encodeItemTC).flatten ++ [']'])) from rfl]
      rw [hrec]

/-- The item loop accepts the strict serialization, returning the
parsed strings in order. -/
theorem parseArrItems_strict : ∀ (ss : List String) (f : Nat) (rest : List Char), ss ≠ [] →
    (∀ s ∈ ss, s.toList.all isAlnum = true) → ss.length + 1 ≤ f →
    parseArrItems f (strictItems ss ++ ']' :: rest) = some (ss.map Json.str, rest) := by
  intro ss
  induction ss with
  | nil => intro f rest hne _ _; exact absurd rfl hne
  | cons s t ih =>
    intro f rest _ hal hf
    obtain ⟨g, rfl⟩ : ∃ g, f = g + 1 + 1 := ⟨f - 2, by simp at hf; omega⟩
    cases t with
    | nil =>
      rw [show strictItems [s] ++ ']' :: rest = '"' :: (s.toList ++ '"' :: (']' :: rest)) by
        simp [strictItems]]
      rw [show parseArrItems (g + 1 + 1) ('"' :: (s.toList ++ '"' :: (']' :: rest))) =
          (match parseValue (g + 1) ('"' :: (s.toList ++ '"' :: (']' :: rest))) with
           | none => none
           | some (v, r) =>
             match skipWs r with
             | ',' :: r' =>
               match parseArrItems (g + 1) (skipWs r') with
               | some (vs, rest) => some (v :: vs, rest)
               | none => none
             | ']' :: r' => some ([v], r')
             | _ => none) from rfl]
      rw [parseValue_string g s.toList (']' :: rest) (hal s (List.mem_cons_self s []))]
      rfl
    | cons s2 t2 =>
      rw [show strictItems (s :: s2 :: t2) ++ ']' :: rest =
          '"' :: (s.toList ++ '"' :: ',' :: (strictItems (s2 :: t2) ++ ']' :: rest)) by
        simp [strictItems]]
      rw [show parseArrItems (g + 1 + 1)
          ('"' :: (s.toList ++ '"' :: ',' :: (strictItems (s2 :: t2) ++ ']' :: rest))) =
          (match parseValue (g + 1)
              ('"' :: (s.toList ++ '"' :: ',' :: (strictItems (s2 :: t2) ++ ']' :: rest))) with
           | none => none
           | some (v, r) =>
             match skipWs r with
             | ',' :: r' =>
               match parseArrItems (g + 1) (skipWs r') with
               | some (vs, rest) => some (v :: vs, rest)
               | none => none
             | ']' :: r' => some ([v], r')
             | _ => none) from rfl]
      rw [parseValue_string g s.toList (',' :: (strictItems (s2 :: t2) ++ ']' :: rest))
        (hal s (List.mem_cons_self s _))]
      show (match parseArrItems (g + 1) (skipWs (strictItems (s2 :: t2) ++ ']' :: rest)) with
           | some (vs, rest) => some (Json.str (String.mk s.toList) :: vs, rest)
           | none => none) = some ((s :: s2 :: t2).map Json.str, rest)
      have hhead : strictItems (s2 :: t2) ++ ']' :: rest =
          '"' :: ((s2.toList ++ ['"'] ++ (if t2.isEmpty then [] else [','] ++ strictItems t2)) ++ ']' :: rest) := by
        cases t2 <;> simp [strictItems]
      have hrec : parseArrItems (g + 1) (strictItems (s2 :: t2) ++ ']' :: rest) =
          some ((s2 :: t2).map Json.str, rest) := by
        apply ih (g + 1) rest (by simp) (fun x hx => hal x (List.mem_cons_of_mem s hx))
        simp at hf ⊢
        omega
      rw [hhead] at hrec ⊢
      rw [show skipWs ('"' :: ((s2.toList ++ ['"'] ++
          (if t2.isEmpty then [] else [','] ++ strictItems t2)) ++ ']' :: rest)) =
          '"' :: ((s2.toList ++ ['"'] ++
          (if t2.isEmpty then [] else [','] ++ strictItems t2)) ++ ']' :: rest) from rfl]
      rw [hrec]
      rfl

/-- Each serialized item contributes at least one character. -/
theorem flatten_enc_length (ss : List String) :
    ss.length ≤ ((ss.map encodeItemTC).flatten).length := by
  induction ss with
  | nil => simp
  | cons s t ih =>
    simp only [List.map_cons, List.flatten_cons, List.length_append, List.length_cons]
    have h1 : 1 ≤ (encodeItemTC s).length := by simp [encodeItemTC]
    omega

/-- Each strictly serialized item contributes at least one
character. -/
theorem strictItems_length (ss : List String) :
    ss.length ≤ (strictItems ss).length := by
  induction ss with
  | nil => simp [strictItems]
  | cons s t ih =>
    cases t with
    | nil => simp [strictItems]
    | cons s2 t2 =>
      simp only [strictItems, List.length_cons, List.length_append]
      simp at ih ⊢
      omega

/-- `JSON.parse` rejects the trailing-comma array literal. -/
theorem jsonParse_tc_none (ss : List String) (hne : ss ≠ [])
    (hal : ∀ s ∈ ss, s.toList.all isAlnum = true) :
    jsonParse (String.mk (tcArrayLit ss)) = none := by
  obtain ⟨s, t, rfl⟩ : ∃ s t, ss = s :: t := by
    cases ss with
    | nil => exact absurd rfl hne
    | cons s t => exact ⟨s, t, rfl⟩
  unfold jsonParse
  rw [show (String.mk (tcArrayLit (s :: t))).toList = tcArrayLit (s :: t) from rfl]
  set X := s.toList ++ '"' :: ',' :: ((t.map encodeItemTC).flatten ++ [']']) with hX
  have hsh : tcArrayLit (s :: t) = '[' :: '"' :: X := by
    rw [hX]
    simp [tcArrayLit, encodeItemTC]
  rw [hsh]
  rw [show skipWs ('[' :: '"' :: X) = '[' :: '"' :: X from rfl]
  have hfx : ((s :: t).map encodeItemTC).flatten ++ [']'] = '"' :: X := by
    rw [hX]
    simp [encodeItemTC]
  have hxlen : ((s :: t).map encodeItemTC).flatten.length + 1 = X.length + 1 := by
    have hc := congrArg List.length hfx
    simp only [List.length_append, List.length_cons, List.length_nil] at hc
    omega
  have hXb : (s :: t).length ≤ X.length := by
    have hsplit : X = (s.toList ++ ['"', ',']) ++ ((t.map encodeItemTC).flatten ++ [']']) := by
      rw [hX]
      simp
    have hsx : ((t.map encodeItemTC).flatten ++ [']']) <:+ X :=
      ⟨s.toList ++ ['"', ','], hsplit.symm⟩
    have hsuf := hsx.length_le
    simp only [List.length_append, List.length_cons, List.length_nil] at hsuf
    show t.length + 1 ≤ X.length
    exact Nat.le_trans (Nat.succ_le_succ (flatten_enc_length t)) hsuf
  clear_value X
  obtain ⟨F, hF, hFb⟩ : ∃ F, 2 * ('[' :: '"' :: X).length + 8 = F + 1 ∧
      (s :: t).length + 1 ≤ F := by
    refine ⟨2 * ('[' :: '"' :: X).length + 7, by omega, ?_⟩
    simp only [List.length_cons] at hXb ⊢
    omega
  rw [hF]
  rw [show parseValue (F + 1) ('[' :: '"' :: X) =
      (match parseArrItems F ('"' :: X) with
       | some (vs, rest) => some (Json.arr vs, rest)
       | none => none) from rfl]
  have hrec : parseArrItems F ('"' :: X) = none := by
    have h2 := parseArrItems_tc_none (s :: t) F (by simp) hal hFb
    rwa [hfx] at h2
  rw [hrec]

/-- `JSON.parse` accepts the strict array literal, returning the
strings in order. -/
theorem jsonParse_strict (ss : List String) (hne : ss ≠ [])
    (hal : ∀ s ∈ ss, s.toList.all isAlnum = true) :
    jsonParse (String.mk (strictArrayLit ss)) = some (Json.arr (ss.map Json.str)) := by
  obtain ⟨s, t, rfl⟩ : ∃ s t, ss = s :: t := by
    cases ss with
    | nil => exact absurd rfl hne
    | cons s t => exact ⟨s, t, rfl⟩
  unfold jsonParse
  rw [show (String.mk (strictArrayLit (s :: t))).toList = strictArrayLit (s :: t) from rfl]
  set X := (s.toList ++ ['"'] ++ (if t.isEmpty then [] else [','] ++ strictItems t)) ++
    ']' :: ([] : List Char) with hX
  have hitems : strictItems (s :: t) ++ ']' :: ([] : List Char) = '"' :: X := by
    rw [hX]
    cases t <;> simp [strictItems]
  have hsh : strictArrayLit (s :: t) = '[' :: '"' :: X := by
    rw [← hitems]
    simp [strictArrayLit]
  rw [hsh]
  rw [show skipWs ('[' :: '"' :: X) = '[' :: '"' :: X from rfl]
  obtain ⟨F, hF, hFb⟩ : ∃ F, 2 * ('[' :: '"' :: X).length + 8 = F + 1 ∧
      (s :: t).length + 1 ≤ F := by
    refine ⟨2 * ('[' :: '"' :: X).length + 7, by omega, ?_⟩
    have hsl := strictItems_length (s :: t)
    have hxlen : (strictItems (s :: t)).length + 1 = X.length + 1 := by
      have hc := congrArg List.length hitems
      simp only [List.length_append, List.length_cons, List.length_nil] at hc
      omega
    simp only [List.length_cons] at hsl ⊢
    omega
  rw [hF]
  rw [show parseValue (F + 1) ('[' :: '"' :: X) =
      (match parseArrItems F ('"' :: X) with
       | some (vs, rest) => some (Json.arr vs, rest)
       | none => none) from rfl]
  have hrec : parseArrItems F ('"' :: X) = some ((s :: t).map Json.str, []) := by
    have h2 := parseArrItems_strict (s :: t) F [] (by simp) hal hFb
    rwa [hitems] at h2
  rw [hrec]
  rfl

/-- Dropping over a fully satisfying prefix. -/
theorem dropWhile_append_all (p : Char → Bool) (a l : List Char)
    (h : ∀ c ∈ a, p c = true) :
    (a ++ l).dropWhile p = l.dropWhile p := by
  induction a with
  | nil => rfl
  | cons c t ih =>
    rw [List.cons_append, List.dropWhile_cons_of_pos (h c (List.mem_cons_self c t)),
      ih (fun x hx => h x (List.mem_cons_of_mem c hx))]

/-- The last index of a character occurring exactly once at a known
position. -/
theorem lastIdxOf_split (c : Char) (a b : List Char) (ha : c ∉ a) (hb : c ∉ b) :
    lastIdxOf c (a ++ c :: b) = some a.length := by
  induction a with
  | nil =>
    show (match lastIdxOf c b with
          | some j => some (j + 1)
          | none => if c == c then some 0 else none) = some 0
    rw [(lastIdxOf_eq_none_iff c b).mpr hb]
    simp
  | cons x a' ih =>
    have hx : c ∉ a' := fun hm => ha (List.mem_cons_of_mem x hm)
    have hxc : (x == c) = false := by
      have : ¬(x = c) := fun heq => ha (heq ▸ List.mem_cons_self x a')
      simp [this]
    simp [lastIdxOf, ih hx]

/-- The greedy bracket match on the fenced model output extracts
exactly the trailing-comma array literal: the fence contains no
brackets, so the first `[` and the last `]` are the literal's. -/
theorem greedy_fencedTC (ss : List String) (hne : ss ≠ [])
    (hal : ∀ s ∈ ss, s.toList.all isAlnum = true) :
    greedyArrayMatch (fencedTC ss).toList = some (tcArrayLit ss) := by
  rw [show (fencedTC ss).toList =
      "```json\n".toList ++ (tcArrayLit ss ++ "\n```".toList) from rfl]
  unfold greedyArrayMatch
  have hpre : ∀ c ∈ "```json\n".toList, (c != '[') = true := by decide
  rw [dropWhile_append_all _ _ _ hpre]
  have hsh : tcArrayLit ss ++ "\n```".toList =
      '[' :: ((ss.map encodeItemTC).flatten ++ ']' :: "\n```".toList) := by
    simp [tcArrayLit]
  rw [hsh]
  rw [show ('[' :: ((ss.map encodeItemTC).flatten ++ ']' :: "\n```".toList)).dropWhile
      (fun c => c != '[') = '[' :: ((ss.map encodeItemTC).flatten ++ ']' :: "\n```".toList)
      from rfl]
  show (match lastIdxOf ']' ((ss.map encodeItemTC).flatten ++ ']' :: "\n```".toList) with
        | none => none
        | some j => some ('[' ::
            ((ss.map encodeItemTC).flatten ++ ']' :: "\n```".toList).take (j + 1))) =
      some (tcArrayLit ss)
  have hnotin1 : ']' ∉ (ss.map encodeItemTC).flatten := by
    intro hm
    rcases tcItems_chars ss hal ']' hm with h | h | h <;> revert h <;> decide
  have hnotin2 : ']' ∉ "\n```".toList := by decide
  rw [lastIdxOf_split ']' _ _ hnotin1 hnotin2]
  show some ('[' :: ((ss.map encodeItemTC).flatten ++ ']' :: "\n```".toList).take
      ((ss.map encodeItemTC).flatten.length + 1)) = some (tcArrayLit ss)
  have htake : ((ss.map encodeItemTC).flatten ++ ']' :: "\n```".toList).take
      ((ss.map encodeItemTC).flatten.length + 1) = (ss.map encodeItemTC).flatten ++ [']'] := by
    rw [List.take_append]
    simp
  rw [htake]
  simp [tcArrayLit]

/-- C5 counterexample: the fenced model output `c5CexContent` wraps an
array literal that is valid JSON except for its trailing comma (third
conjunct), yet after the trailing comma is stripped the unescape step
turns the inner `\"` into a bare quote, the one re-parse fails, and the
pipeline returns the fallback quiz instead of a parse of the
candidate. -/
theorem c5_escaped_quote_cex :
    greedyArrayMatch c5CexContent.toList = some c5CexCandidate ∧
    jsonParse c5CexRepairedByHand = some (Json.arr [Json.str "a\"b"]) ∧
    jsonParse (String.mk c5CexCandidate) = none ∧
    jsonParse (String.mk (cleanJson c5CexCandidate)) = none ∧
    extractQuestions c5CexContent = Except.ok fallbackQuestions :=
  ⟨rfl, rfl, rfl, rfl, rfl⟩

/-- C5 (amended): for every fenced `json` model output wrapping an
array of double-quoted alphanumeric strings with a trailing comma
before the closing bracket — valid JSON except for the trailing comma,
with no escape sequences — the direct parse of the extracted candidate
fails, the deterministic repair pass followed by exactly one re-parse
succeeds, and the pipeline returns the parsed array.  Candidates whose
strings contain escape sequences defeat the repair (see the
counterexample). -/
theorem c5_repair_recovers (ss : List String) (hne : ss ≠ [])
    (hal : ∀ s ∈ ss, s.toList.all isAlnum = true) :
    jsonParse (String.mk (tcArrayLit ss)) = none ∧
    jsonParse (String.mk (cleanJson (tcArrayLit ss))) = some (Json.arr (ss.map Json.str)) ∧
    extractQuestions (fencedTC ss) = Except.ok (Json.arr (ss.map Json.str)) := by
  have h1 := jsonParse_tc_none ss hne hal
  have h2 : jsonParse (String.mk (cleanJson (tcArrayLit ss))) =
      some (Json.arr (ss.map Json.str)) := by
    rw [cleanJson_tcArrayLit ss hne hal]
    exact jsonParse_strict ss hne hal
  refine ⟨h1, h2, ?_⟩
  unfold extractQuestions
  rw [greedy_fencedTC ss hne hal]
  show parseCleanFallback (tcArrayLit ss) = Except.ok (Json.arr (ss.map Json.str))
  unfold parseCleanFallback
  rw [h1, h2]

/-- Witness for the amended C5 at a two-string fenced output. -/
theorem c5_repair_recovers_witness :
    jsonParse (String.mk (tcArrayLit ["abc", "xy"])) = none ∧
    jsonParse (String.mk (cleanJson (tcArrayLit ["abc", "xy"]))) =
      some (Json.arr (["abc", "xy"].map Json.str)) ∧
    extractQuestions (fencedTC ["abc", "xy"]) =
      Except.ok (Json.arr (["abc", "xy"].map Json.str)) :=
  c5_repair_recovers ["abc", "xy"] (by decide) (by decide)

end Vid2Quiz
